import Mathlib

/-!
# Verification of `urlfuncs` (urlfuncs3.py)

A shallow embedding of the string-processing functions of `urlfuncs3.py`
over `List Char`, together with theorems settling the specification
claims.  Python strings are modelled as `List Char`; fallible Python
functions (those that can raise) return `Except PyErr _`.

The embedding follows the source file function by function:
* `urllib.parse.urlsplit` / `urlparse` are modelled after CPython's
  `urllib/parse.py` (scheme split at the first `:` when all preceding
  characters are scheme characters, `//`-introduced netloc up to the first
  `/?#`, the "Invalid IPv6 URL" check, fragment then query split, and the
  params split of `urlparse`).
* The module-level regexes are modelled by explicit matchers over
  `List Char` that mirror the patterns; `re.search` on the `^...$`
  anchored patterns is full-string matching, where `$` also matches just
  before a single trailing `'\n'`.
-/

namespace Urlfuncs

/-- Convert a string literal to the `List Char` it denotes. -/
def strL (s : String) : List Char := s.data

/-- Python `str.isspace` / whitespace set used by `str.strip()` (Unicode
whitespace characters). -/
def pyIsSpace (c : Char) : Bool :=
  c ∈ [' ', '\t', '\n', '\r', '\x0b', '\x0c',
       '\x1c', '\x1d', '\x1e', '\x1f', '\x85', '\xa0',
       ' ', ' ', ' ', ' ', ' ', ' ',
       ' ', ' ', ' ', ' ', ' ', ' ',
       ' ', ' ', ' ', ' ', '　']

/-- Remove trailing whitespace (Python `str.rstrip()`). -/
def pyRstrip (l : List Char) : List Char :=
  (l.reverse.dropWhile pyIsSpace).reverse

/-- Python `str.strip()`: drop leading and trailing whitespace. -/
def pyStrip (l : List Char) : List Char :=
  pyRstrip (l.dropWhile pyIsSpace)

/-- Line-boundary characters of Python `str.splitlines()` (besides the
two-character boundary `"\r\n"`, handled in `pySplitlines`). -/
def isLineBreak (c : Char) : Bool :=
  c ∈ ['\n', '\r', '\x0b', '\x0c', '\x1c', '\x1d', '\x1e', '\x85',
       ' ', ' ']

/-- Python `str.splitlines()`: split at line boundaries, treating `"\r\n"`
as a single boundary; a trailing boundary does not produce an empty last
line. -/
def pySplitlines : List Char → List (List Char)
  | [] => []
  | '\r' :: '\n' :: t => [] :: pySplitlines t
  | c :: t =>
    if isLineBreak c then [] :: pySplitlines t
    else
      match pySplitlines t with
      | [] => [[c]]
      | line :: ls => (c :: line) :: ls

/-- Split a list at the first occurrence of `sep` (Python
`s.split(sep, 1)` for a single-character separator): `some (before,
after)` when `sep` occurs, `none` otherwise. -/
def breakAtChar (sep : Char) : List Char → Option (List Char × List Char)
  | [] => none
  | c :: t =>
    if c = sep then some ([], t)
    else (breakAtChar sep t).map (fun p => (c :: p.1, p.2))

/-- Index of the first occurrence of `pat` as a contiguous sublist of `s`
(Python `s.find(pat)`); `some 0` for the empty pattern. -/
def findSub (s pat : List Char) : Option Nat :=
  if pat.isPrefixOf s then some 0
  else
    match s with
    | [] => none
    | _ :: t => (findSub t pat).map (· + 1)

/-- Python `s.replace(pat, rep, 1)`: replace the first occurrence of `pat`
by `rep` (for the empty pattern this inserts `rep` at position 0, as in
Python). -/
def replaceFirst (s pat rep : List Char) : List Char :=
  match findSub s pat with
  | some i => s.take i ++ rep ++ s.drop (i + pat.length)
  | none => s

/-- `remove_http`: remove the first occurrence of `"https://"`, then the
first occurrence of `"http://"` (`str.replace(_, '', 1)` twice). -/
def remove_http (url : List Char) : List Char :=
  replaceFirst (replaceFirst url (strL "https://") []) (strL "http://") []

/-- `remove_last_slash`: the `while` loop stripping trailing `'/'`
characters one at a time (`string[-1:] != '/'` is the exit test, so the
empty string exits at once). -/
def remove_last_slash (s : List Char) : List Char :=
  if s.getLast? = some '/' then remove_last_slash s.dropLast else s
termination_by s.length
decreasing_by
  rename_i h
  have hne : s ≠ [] := by intro hs; subst hs; simp at h
  have hpos : 0 < s.length := List.length_pos.mpr hne
  simp only [List.length_dropLast]
  omega

/-- The single match attempt of `REMOVE_WWW_PATTERN =
`^(http(s)?://)?w{3}\.(.+)`` at the start of `url`, returning
`''.join(groups)` of the first match: group 1 is the matched scheme text,
group 2 the nested `(s)`, group 3 the greedy `(.+)` capture (which stops
before a newline and must be non-empty).  `none` when the pattern does not
match, in which case `remove_www` hits the `IndexError` branch and returns
the input unchanged. -/
def wwwJoinedGroups (url : List Char) : Option (List Char) :=
  let (g1, g2, rest) :=
    if (strL "https://").isPrefixOf url then (strL "https://", strL "s", url.drop 8)
    else if (strL "http://").isPrefixOf url then (strL "http://", ([] : List Char), url.drop 7)
    else (([] : List Char), ([] : List Char), url)
  if (strL "www.").isPrefixOf rest then
    let captured := (rest.drop 4).takeWhile (· ≠ '\n')
    if captured = [] then none else some (g1 ++ g2 ++ captured)
  else none

/-- `remove_www`: `''.join(REMOVE_WWW_PATTERN.findall(url)[0])`, falling
back to the input on `IndexError` (no match). -/
def remove_www (url : List Char) : List Char :=
  match wwwJoinedGroups url with
  | some joined => joined
  | none => url

/-- `full_clean_url`: strip, `remove_http`, `remove_last_slash`,
`remove_www`, in that order. -/
def full_clean_url (url : List Char) : List Char :=
  remove_www (remove_last_slash (remove_http (pyStrip url)))

/-! ## `urllib.parse` model -/

/-- Errors raised by the embedded Python code (`ValueError`s, carried
structurally). -/
inductive PyErr where
  /-- `urllib.parse.urlsplit`: "Invalid IPv6 URL". -/
  | invalidIPv6URL : PyErr
  /-- `get_url_domain`: "Not valid URL: %s". -/
  | notValidURL (url : List Char) : PyErr
  /-- `parse_url_list`: "Invalid URL %s on string %s". -/
  | invalidURLAt (url : List Char) (i : Nat) : PyErr
deriving DecidableEq, Repr

/-- Result of `urllib.parse.urlparse` (`ParseResult`). -/
structure ParseResult where
  scheme : List Char
  netloc : List Char
  path : List Char
  params : List Char
  query : List Char
  fragment : List Char
deriving DecidableEq, Repr

/-- `urllib.parse.scheme_chars`. -/
def isSchemeChar (c : Char) : Bool :=
  ('a' ≤ c ∧ c ≤ 'z') ∨ ('A' ≤ c ∧ c ≤ 'Z') ∨ ('0' ≤ c ∧ c ≤ '9') ∨
    c = '+' ∨ c = '-' ∨ c = '.'

/-- The scheme-splitting step of `urlsplit`: when the input contains a
`':'` at a positive index and everything before it is made of scheme
characters, the (lower-cased) scheme and the rest; otherwise no scheme. -/
def splitScheme (url : List Char) : List Char × List Char :=
  match breakAtChar ':' url with
  | some (before, after) =>
    if before ≠ [] ∧ before.all isSchemeChar then (before.map Char.toLower, after)
    else ([], url)
  | none => ([], url)

/-- Netloc delimiters (`urllib.parse._splitnetloc` stops at `/?#`). -/
def isNetlocDelim (c : Char) : Bool := c = '/' ∨ c = '?' ∨ c = '#'

/-- Result of `urllib.parse.urlsplit` (no params field). -/
structure SplitResult where
  scheme : List Char
  netloc : List Char
  path : List Char
  query : List Char
  fragment : List Char
deriving DecidableEq, Repr

/-- The fragment and query splitting steps of `urlsplit`: split at the
first `'#'`, then the first `'?'` of what precedes it. -/
def splitFragQuery (rest : List Char) : List Char × List Char × List Char :=
  let (rest', fragment) :=
    match breakAtChar '#' rest with
    | some (a, b) => (a, b)
    | none => (rest, [])
  let (path, query) :=
    match breakAtChar '?' rest' with
    | some (a, b) => (a, b)
    | none => (rest', [])
  (path, query, fragment)

/-- `urllib.parse.urlsplit(url)`: scheme split, then — when the remainder
starts with `"//"` (`url[:2] == '//'`) — the netloc up to the first
`/?#`, with the "Invalid IPv6 URL" bracket check, then fragment and query
splits. -/
def urlsplit (url : List Char) : Except PyErr SplitResult :=
  let (scheme, rest) := splitScheme url
  if (strL "//").isPrefixOf rest then
    let after := rest.drop 2
    let netloc := after.takeWhile (fun c => ¬ isNetlocDelim c)
    let rest2 := after.drop netloc.length
    if (netloc.contains '[') ≠ (netloc.contains ']') then
      Except.error PyErr.invalidIPv6URL
    else
      let (path, query, fragment) := splitFragQuery rest2
      Except.ok ⟨scheme, netloc, path, query, fragment⟩
  else
    let (path, query, fragment) := splitFragQuery rest
    Except.ok ⟨scheme, [], path, query, fragment⟩

/-- `urllib.parse.uses_params`. -/
def uses_params : List (List Char) :=
  [[], strL "ftp", strL "hdl", strL "prospero", strL "http", strL "imap",
   strL "https", strL "shttp", strL "rtsp", strL "rtspu", strL "sip",
   strL "sips", strL "mms", strL "sftp", strL "tel"]

/-- Index of the last occurrence of `c` in `l` (Python `s.rfind(c)`),
`none` when absent. -/
def rfindIdx (c : Char) (l : List Char) : Option Nat :=
  (l.reverse.findIdx? (· = c)).map (fun j => l.length - 1 - j)

/-- `urllib.parse._splitparams(url)`: split params off the path at the
first `';'` that follows the last `'/'` (or the first `';'` at all when
the path has no `'/'`). -/
def splitparams (path : List Char) : List Char × List Char :=
  if path.contains '/' then
    match rfindIdx '/' path with
    | some k =>
      match (path.drop k).findIdx? (· = ';') with
      | some m => (path.take (k + m), path.drop (k + m + 1))
      | none => (path, [])
    | none => (path, [])
  else
    match breakAtChar ';' path with
    | some (a, b) => (a, b)
    | none => (path, [])

/-- `urllib.parse.urlparse(url)`: `urlsplit` plus the params split (for
schemes in `uses_params`, when the path contains a `';'`). -/
def urlparse (url : List Char) : Except PyErr ParseResult := do
  let s ← urlsplit url
  let (path, params) :=
    if uses_params.contains s.scheme ∧ s.path.contains ';' then
      splitparams s.path
    else (s.path, [])
  pure ⟨s.scheme, s.netloc, path, params, s.query, s.fragment⟩

/-! ## Toggles and zone extraction -/

/-- Python `path.split('/')[0]`: the segment before the first `'/'`. -/
def headSegment (l : List Char) : List Char := l.takeWhile (· ≠ '/')

/-- The host token used by `toggle_url_www`, `get_root_domain_zone` and
`get_domain_zone`: the netloc when non-empty, else the first
`'/'`-delimited segment of the path. -/
def hostToken (p : ParseResult) : List Char :=
  if p.netloc ≠ [] then p.netloc else headSegment p.path

/-- `toggle_url_www`: parse, pick the host token, strip a (case-
insensitive) leading `"www."` or prepend `"www."`, and replace the first
occurrence of the original token in the input. -/
def toggle_url_www (url : List Char) : Except PyErr (List Char) := do
  let p ← urlparse url
  let netloc := hostToken p
  let toggled :=
    if (strL "www.").isPrefixOf (netloc.map Char.toLower) then netloc.drop 4
    else strL "www." ++ netloc
  pure (replaceFirst url netloc toggled)

/-- The `slash` token of `toggle_last_url_slash`. -/
def slashTok (encoded : Bool) : List Char :=
  if encoded then strL "%2F" else strL "/"

/-- `toggle_last_url_slash(url, encoded)`: strip, then remove the slash
token suffix when present, else append it. -/
def toggle_last_url_slash (url : List Char) (encoded : Bool) : List Char :=
  let trimmed := pyStrip url
  let slash := slashTok encoded
  if slash.isSuffixOf trimmed then trimmed.take (trimmed.length - slash.length)
  else trimmed ++ slash

/-- Python `netloc.split('.')` (always a non-empty list of labels). -/
def splitOnDot : List Char → List (List Char)
  | [] => [[]]
  | c :: t =>
    if c = '.' then [] :: splitOnDot t
    else
      match splitOnDot t with
      | [] => [[c]]
      | lab :: ls => (c :: lab) :: ls

/-- Python `'.'.join(parts)`. -/
def joinDots : List (List Char) → List Char
  | [] => []
  | [p] => p
  | p :: ps => p ++ '.' :: joinDots ps

/-- `get_root_domain_zone`: last `'.'`-separated label of the host
token. -/
def get_root_domain_zone (url : List Char) : Except PyErr (List Char) := do
  let p ← urlparse url
  pure ((splitOnDot (hostToken p)).getLastD [])

/-- The `for ... break` loop of `get_domain_zone`: walk the labels (in
the reversed order the loop sees), keeping labels of length strictly
between 1 and 4, stopping at the first other label. -/
def collectZone : List (List Char) → List (List Char)
  | [] => []
  | p :: rest => if 1 < p.length ∧ p.length < 4 then p :: collectZone rest else []

/-- `get_domain_zone`: start from the last label of the host token, keep
prepending 2–3-character labels walking leftwards, and join with `'.'`. -/
def get_domain_zone (url : List Char) : Except PyErr (List Char) := do
  let p ← urlparse url
  let splitted := splitOnDot (hostToken p)
  let lastLab := splitted.getLastD []
  let domain_zone := lastLab :: collectZone splitted.dropLast.reverse
  pure (joinDots domain_zone.reverse)

/-! ## A small nondeterministic regex matcher

`re.search` of the module's anchored patterns (`^...$`) is modelled by
full-string matching.  A matcher maps an input to the list of possible
remainders after consuming a matched prefix; a pattern matches the whole
input when the empty remainder is reachable.  This decides match
*existence*, which is all `re.search`'s boolean use here needs (the one
pattern used with capture groups, `REMOVE_WWW_PATTERN`, is modelled
separately by `wwwJoinedGroups`). -/

/-- Nondeterministic matcher: the possible remainders after a match. -/
def Matcher := List Char → List (List Char)

/-- Match the empty string. -/
def mEps : Matcher := fun l => [l]

/-- Match one character satisfying `p` (a regex character class). -/
def mCls (p : Char → Bool) : Matcher := fun l =>
  match l with
  | c :: t => if p c then [t] else []
  | [] => []

/-- Match one given character. -/
def mCh (c : Char) : Matcher := mCls (· = c)

/-- Concatenation. -/
def mSeq (a b : Matcher) : Matcher := fun l => (a l).flatMap b

/-- Alternation. -/
def mAlt (a b : Matcher) : Matcher := fun l => a l ++ b l

/-- `a?`. -/
def mOpt (a : Matcher) : Matcher := mAlt mEps a

/-- `a{0,n}`. -/
def mUpTo : Nat → Matcher → Matcher
  | 0, _ => mEps
  | n + 1, a => mAlt mEps (mSeq a (mUpTo n a))

/-- `a{n}`. -/
def mTimes : Nat → Matcher → Matcher
  | 0, _ => mEps
  | n + 1, a => mSeq a (mTimes n a)

/-- `a{lo,hi}`. -/
def mRep (lo hi : Nat) (a : Matcher) : Matcher :=
  mSeq (mTimes lo a) (mUpTo (hi - lo) a)

/-- Fuelled Kleene star (the fuel bounds the number of iterations). -/
def mManyF : Nat → Matcher → Matcher
  | 0, _ => mEps
  | n + 1, a => fun l => l :: (a l).flatMap (mManyF n a)

/-- `a*`, for `a` consuming at least one character per iteration (true of
every starred sub-pattern below), so `l.length` iterations suffice. -/
def mMany (a : Matcher) : Matcher := fun l => mManyF l.length a l

/-- `a+`. -/
def mPlus (a : Matcher) : Matcher := mSeq a (mMany a)

/-- `a{n,}`. -/
def mAtLeast (n : Nat) (a : Matcher) : Matcher := mSeq (mTimes n a) (mMany a)

/-- A literal, compared case-insensitively (all the module's patterns are
compiled with `re.IGNORECASE`; `s` is given in lower case). -/
def mLitCI (s : List Char) : Matcher := fun l =>
  if (l.take s.length).map Char.toLower = s then [l.drop s.length] else []

/-- Whole-input match. -/
def mFull (a : Matcher) (l : List Char) : Bool := (a l).any List.isEmpty

/-- `re.search` of a `^...$`-anchored pattern: the pattern must match the
whole string, where `$` also matches just before a single trailing
newline. -/
def reSearchAnchored (a : Matcher) (l : List Char) : Bool :=
  mFull a l || (l.getLast? = some '\n' && mFull a l.dropLast)

/-! ### Character classes of the module's patterns -/

/-- `[A-Z]` under `re.IGNORECASE`. -/
def isAZ (c : Char) : Bool := ('A' ≤ c ∧ c ≤ 'Z') ∨ ('a' ≤ c ∧ c ≤ 'z')

/-- `[0-9]` / `\d` (ASCII digits; non-ASCII Unicode digits are not
modelled — no claim involves them). -/
def isDigitC (c : Char) : Bool := '0' ≤ c ∧ c ≤ '9'

/-- `[A-Z0-9]` under `re.IGNORECASE`. -/
def isAZ09 (c : Char) : Bool := isAZ c ∨ isDigitC c

/-- `[A-Z0-9-]` under `re.IGNORECASE`. -/
def isAZ09dash (c : Char) : Bool := isAZ09 c ∨ c = '-'

/-- `\w` with `re.UNICODE`: ASCII alphanumerics, `'_'`, and non-ASCII
word characters (approximated as all non-ASCII code points; no claim
involves non-ASCII input to this class). -/
def isWordChar (c : Char) : Bool := isAZ09 c ∨ c = '_' ∨ 128 ≤ c.val

/-- `[\w-]`. -/
def isWordDash (c : Char) : Bool := isWordChar c ∨ c = '-'

/-- `\S`. -/
def isNonSpace (c : Char) : Bool := ¬ pyIsSpace c

/-! ### `DJANGO_URL_REGEX` -/

/-- `(?:http|ftp)s?://` (case-insensitive). -/
def djangoScheme : Matcher :=
  mSeq (mAlt (mLitCI (strL "http")) (mLitCI (strL "ftp")))
    (mSeq (mOpt (mLitCI (strL "s"))) (mLitCI (strL "://")))

/-- `(?:[A-Z0-9](?:[A-Z0-9-]{0,61}[A-Z0-9])?\.)` — one dotted label of the
first hostname alternative. -/
def djangoLabelA : Matcher :=
  mSeq (mCls isAZ09)
    (mSeq (mOpt (mSeq (mUpTo 61 (mCls isAZ09dash)) (mCls isAZ09))) (mCh '.'))

/-- `(?:[A-Z]{2,6}\.?|[A-Z0-9-]{2,}\.?)` — the top label of the first
hostname alternative. -/
def djangoTopA : Matcher :=
  mAlt (mSeq (mRep 2 6 (mCls isAZ)) (mOpt (mCh '.')))
    (mSeq (mAtLeast 2 (mCls isAZ09dash)) (mOpt (mCh '.')))

/-- `(?:[\w](?:[\w-]{0,61}[\w])?\.)` — one dotted label of the second
(word-character) hostname alternative. -/
def djangoLabelB : Matcher :=
  mSeq (mCls isWordChar)
    (mSeq (mOpt (mSeq (mUpTo 61 (mCls isWordDash)) (mCls isWordChar))) (mCh '.'))

/-- `(?:[\w]{2,6}\.?|[\w-]{2,}\.?)`. -/
def djangoTopB : Matcher :=
  mAlt (mSeq (mRep 2 6 (mCls isWordChar)) (mOpt (mCh '.')))
    (mSeq (mAtLeast 2 (mCls isWordDash)) (mOpt (mCh '.')))

/-- `\d{1,3}\.\d{1,3}\.\d{1,3}\.\d{1,3}`. -/
def djangoIp : Matcher :=
  mSeq (mRep 1 3 (mCls isDigitC))
    (mSeq (mCh '.')
      (mSeq (mRep 1 3 (mCls isDigitC))
        (mSeq (mCh '.')
          (mSeq (mRep 1 3 (mCls isDigitC))
            (mSeq (mCh '.') (mRep 1 3 (mCls isDigitC)))))))

/-- The host alternation of `DJANGO_URL_REGEX`. -/
def djangoHost : Matcher :=
  mAlt (mSeq (mPlus djangoLabelA) djangoTopA)
    (mAlt (mSeq (mPlus djangoLabelB) djangoTopB)
      (mAlt (mLitCI (strL "localhost")) djangoIp))

/-- `(?::\d+)?`. -/
def djangoPort : Matcher := mOpt (mSeq (mCh ':') (mPlus (mCls isDigitC)))

/-- `(?:/?|[/?]\S+)`. -/
def djangoTail : Matcher :=
  mAlt (mOpt (mCh '/'))
    (mSeq (mCls (fun c => c = '/' ∨ c = '?')) (mPlus (mCls isNonSpace)))

/-- `DJANGO_URL_REGEX` (between its `^` and `$`). -/
def djangoM : Matcher :=
  mSeq djangoScheme (mSeq djangoHost (mSeq djangoPort djangoTail))

/-! ### `IPV4_REGEX` -/

/-- The class matched by the unescaped `.` of `IPV4_REGEX`: any character
except a newline (no `re.DOTALL`). -/
def notNL (c : Char) : Bool := c ≠ '\n'

/-- The shape of `IPV4_REGEX` between its anchors, with the separator
class as a parameter (instantiated with `notNL` for the real pattern and
with the always-true class for the claim's "any character" reading). -/
def ipv4MWith (sepOk : Char → Bool) : Matcher :=
  mSeq (mUpTo 3 (mCls isDigitC))
    (mSeq (mCls sepOk)
      (mSeq (mUpTo 3 (mCls isDigitC))
        (mSeq (mCls sepOk)
          (mSeq (mUpTo 3 (mCls isDigitC))
            (mSeq (mCls sepOk) (mUpTo 3 (mCls isDigitC)))))))

/-- `IPV4_REGEX` with its three unescaped `.` separators. -/
def ipv4M : Matcher := ipv4MWith notNL

/-- `is_string_ipv4`: `IPV4_REGEX.search(string)` as a boolean. -/
def is_string_ipv4 (s : List Char) : Bool := reSearchAnchored ipv4M s

/-! ## `decode_string`, IDNA and `decode_url` -/

/-- `decode_string` on text input returns it unchanged (the byte-decoding
fallback chain concerns byte-string inputs, outside this embedding of the
text-level functions). -/
def decode_string (s : List Char) : List Char := s

/-- ASCII code point. -/
def isAsciiChar (c : Char) : Bool := c.val < 128

/-- The label separators of the `idna` codec (`encodings.idna.dots`). -/
def isIdnaDot (c : Char) : Bool := c ∈ ['.', '。', '．', '｡']

/-- Split on IDNA label separators (like `splitOnDot` but for the four
separator characters). -/
def splitIdnaDots : List Char → List (List Char)
  | [] => [[]]
  | c :: t =>
    if isIdnaDot c then [] :: splitIdnaDots t
    else
      match splitIdnaDots t with
      | [] => [[c]]
      | lab :: ls => (c :: lab) :: ls

/-- `encodings.idna.ToASCII` for an all-ASCII label: the label itself when
its length is in `1..63`, failure otherwise.  Non-ASCII labels (nameprep
plus punycode) are modelled as a failed conversion: `decode_url` catches
any failure and keeps the netloc unchanged, and no claim depends on the
punycode output of a non-ASCII host. -/
def toASCII (label : List Char) : Option (List Char) :=
  if label.all isAsciiChar then
    if 0 < label.length ∧ label.length < 64 then some label else none
  else none

/-- `netloc.encode('idna')`: split into labels, drop one trailing empty
label (a trailing dot), convert each label with `ToASCII` and re-join. -/
def idnaEncode (input : List Char) : Option (List Char) :=
  if input = [] then some []
  else
    let labels := splitIdnaDots input
    let (labels, trailingDot) :=
      if labels.getLast? = some [] then (labels.dropLast, true) else (labels, false)
    match labels.mapM toASCII with
    | some ls => some (joinDots ls ++ if trailingDot then ['.'] else [])
    | none => none

/-- `decode_url`: decode, parse, and when a netloc is present replace its
first occurrence by its IDNA form (on any IDNA failure the netloc is kept
unchanged).  The only uncaught failure is the one `urlparse` itself can
raise. -/
def decode_url (url : List Char) : Except PyErr (List Char) := do
  let decoded := decode_string url
  let p ← urlparse decoded
  if p.netloc ≠ [] then
    let idna_netloc :=
      match idnaEncode p.netloc with
      | some a => a
      | none => p.netloc
    pure (replaceFirst decoded p.netloc idna_netloc)
  else
    pure decoded

/-- `is_string_url`: `DJANGO_URL_REGEX.search(decode_url(url))` as a
boolean. -/
def is_string_url (url : List Char) : Except PyErr Bool := do
  let d ← decode_url url
  pure (reSearchAnchored djangoM d)

/-- `get_url_domain`: raise `"Not valid URL"` unless `is_string_url`, else
the netloc of the parsed URL. -/
def get_url_domain (url : List Char) : Except PyErr (List Char) := do
  let b ← is_string_url url
  if !b then Except.error (PyErr.notValidURL url)
  else do
    let p ← urlparse url
    pure p.netloc

/-- The validation loop of `parse_url_list` (`for i, url in
enumerate(urls): if not is_string_url(url): raise ...`). -/
def checkUrls : Nat → List (List Char) → Except PyErr Unit
  | _, [] => Except.ok ()
  | i, u :: rest => do
    let b ← is_string_url u
    if !b then Except.error (PyErr.invalidURLAt u i)
    else checkUrls (i + 1) rest

/-- `parse_url_list`: `[url.strip() for url in text.splitlines() if url]`
(the emptiness filter applies to the line *before* stripping), then the
validation loop, then the list. -/
def parse_url_list (text : List Char) : Except PyErr (List (List Char)) := do
  let urls := ((pySplitlines text).filter (· ≠ [])).map pyStrip
  checkUrls 0 urls
  pure urls

/-! ## Basic lemmas -/

theorem remove_last_slash_eq (s : List Char) :
    remove_last_slash s =
      if s.getLast? = some '/' then remove_last_slash s.dropLast else s := by
  rw [remove_last_slash]

theorem remove_last_slash_of_not_slash {s : List Char} (h : s.getLast? ≠ some '/') :
    remove_last_slash s = s := by
  rw [remove_last_slash_eq, if_neg h]

/-- C9 induction core: the loop result plus the trailing slashes it
removed reassemble the input, and the result has no trailing slash. -/
theorem remove_last_slash_spec :
    ∀ (k : Nat) (l : List Char), l.length ≤ k →
      (∃ n, l = remove_last_slash l ++ List.replicate n '/') ∧
        (remove_last_slash l).getLast? ≠ some '/' := by
  intro k
  induction k with
  | zero =>
    intro l hl
    have hnil : l = [] := List.length_eq_zero.mp (Nat.le_zero.mp hl)
    subst hnil
    rw [remove_last_slash_eq]
    simp
  | succ k ih =>
    intro l hl
    rw [remove_last_slash_eq]
    by_cases h : l.getLast? = some '/'
    · rw [if_pos h]
      have hne : l ≠ [] := by intro hnil; subst hnil; simp at h
      have hlen : l.dropLast.length ≤ k := by
        have := List.length_pos.mpr hne
        simp only [List.length_dropLast]
        omega
      obtain ⟨⟨n, h1⟩, h2⟩ := ih l.dropLast hlen
      refine ⟨⟨n + 1, ?_⟩, h2⟩
      have hlast : l.getLast hne = '/' := by
        have := List.getLast?_eq_getLast l hne
        rw [this] at h
        exact Option.some.inj h
      conv_lhs => rw [← List.dropLast_append_getLast hne, hlast, h1]
      rw [List.replicate_succ', List.append_assoc]
    · rw [if_neg h]
      exact ⟨⟨0, by simp⟩, h⟩

theorem findSub_nil (s : List Char) : findSub s [] = some 0 := by
  cases s <;> simp [findSub, List.isPrefixOf]

theorem replaceFirst_nil_pat (s rep : List Char) :
    replaceFirst s [] rep = rep ++ s := by
  simp [replaceFirst, findSub_nil]

/-! ## Claim C1 -/

/-- C1: `remove_www` is claimed to return scheme + remainder.  The code
joins *all three* regex groups, including the nested `(s)` of
`(http(s)?://)`, so for an `https` URL the `s` is inserted twice:
`remove_www("https://www.example.com")` is `"https://sexample.com"`, not
the claimed `"https://example.com"`.  For `http` URLs (group 2 empty) the
claimed behavior holds: `remove_www("http://www.ya.ru") = "http://ya.ru"`. -/
theorem remove_www_https_duplicates_s :
    remove_www (strL "https://www.example.com") = strL "https://sexample.com" ∧
      remove_www (strL "https://www.example.com") ≠ strL "https://example.com" ∧
      remove_www (strL "http://www.ya.ru") = strL "http://ya.ru" := by
  refine ⟨rfl, ?_, rfl⟩
  decide

/-! ## Claim C2 -/

/-- C2: `decode_url` and `is_string_url` are claimed never to raise, but
on the malformed input `"http://["` the `urllib.parse.urlparse` call
raises `ValueError("Invalid IPv6 URL")`, which neither function catches:
both raise instead of returning a value. -/
theorem decode_url_raises_on_unclosed_bracket :
    decode_url (strL "http://[") = Except.error PyErr.invalidIPv6URL ∧
      is_string_url (strL "http://[") = Except.error PyErr.invalidIPv6URL := by
  exact ⟨rfl, rfl⟩

/-! ## Claim C9 -/

/-- C9: `remove_last_slash` is total (it is a function in the embedding,
and the loop terminates by the induction of `remove_last_slash_spec`), on
the empty string returns the empty string, and in general returns the
input with all trailing `'/'` removed: the input is the result followed by
some number of slashes, and the result never ends with `'/'`. -/
theorem remove_last_slash_total_spec :
    remove_last_slash [] = [] ∧
      ∀ l : List Char,
        (∃ n, l = remove_last_slash l ++ List.replicate n '/') ∧
          (remove_last_slash l).getLast? ≠ some '/' := by
  constructor
  · rw [remove_last_slash_eq]; simp
  · intro l
    exact remove_last_slash_spec l.length l le_rfl

/-! ## Claim C8 -/

theorem collectZone_eq_takeWhile (ls : List (List Char)) :
    collectZone ls = ls.takeWhile (fun lab => decide (1 < lab.length ∧ lab.length < 4)) := by
  induction ls with
  | nil => rfl
  | cons p rest ih =>
    by_cases h : 1 < p.length ∧ p.length < 4
    · simp [collectZone, List.takeWhile, h, ih]
    · simp [collectZone, List.takeWhile, h]

/-- The spec-worded zone computation: the last label of the host token,
prefixed by the maximal run of 2–3-character labels walking leftwards from
the end, joined with dots left-to-right. -/
def specDomainZone (p : ParseResult) : List Char :=
  let labels := splitOnDot (hostToken p)
  joinDots
    ((labels.dropLast.reverse.takeWhile
        (fun lab => decide (1 < lab.length ∧ lab.length < 4))).reverse
      ++ [labels.getLastD []])

/-- C8: the zone extraction behaves as described — the three concrete
examples of the spec hold, and on every input `get_domain_zone` equals the
spec-worded `specDomainZone` of the parsed URL (and fails only when
`urlparse` does). -/
theorem get_domain_zone_spec :
    get_domain_zone (strL "rada.gov.ua/") = Except.ok (strL "gov.ua") ∧
      get_domain_zone (strL "www.google.com.ua/") = Except.ok (strL "com.ua") ∧
      get_root_domain_zone (strL "rada.gov.ua/testpage") = Except.ok (strL "ua") ∧
      ∀ url, get_domain_zone url = (urlparse url).map specDomainZone := by
  refine ⟨rfl, rfl, rfl, ?_⟩
  intro url
  unfold get_domain_zone
  cases h : urlparse url with
  | error e => rfl
  | ok p =>
    show Except.ok _ = Except.ok _
    congr 1
    unfold specDomainZone
    rw [collectZone_eq_takeWhile]
    simp

/-! ## Claim C10 -/

/-- C10: whenever the host token is empty — the parse yields an empty
netloc and a path that is empty or starts with `'/'` — `toggle_url_www`
prepends `"www."` at position 0 and leaves the rest unchanged (the
`str.replace(netloc, toggled, 1)` with an empty `netloc` inserts at the
front, as in Python). -/
theorem toggle_url_www_empty_host (url : List Char) (p : ParseResult)
    (hp : urlparse url = Except.ok p) (hn : p.netloc = [])
    (hpath : p.path = [] ∨ ∃ t, p.path = '/' :: t) :
    toggle_url_www url = Except.ok (strL "www." ++ url) := by
  unfold toggle_url_www
  rw [hp]
  have hhost : hostToken p = [] := by
    unfold hostToken
    rw [if_neg (by simp [hn])]
    rcases hpath with h | ⟨t, h⟩ <;> simp [headSegment, h]
  show Except.ok _ = Except.ok _
  rw [hhost]
  simp [replaceFirst_nil_pat, List.isPrefixOf, strL]

/-- C10 witness: the two concrete instances of the claim, derived from the
theorem. -/
theorem toggle_url_www_empty_host_witness :
    toggle_url_www (strL "") = Except.ok (strL "www.") ∧
      toggle_url_www (strL "/path") = Except.ok (strL "www./path") := by
  constructor
  · have h := toggle_url_www_empty_host (strL "") ⟨[], [], [], [], [], []⟩ rfl rfl
      (Or.inl rfl)
    simpa using h
  · have h := toggle_url_www_empty_host (strL "/path") ⟨[], [], strL "/path", [], [], []⟩
      rfl rfl (Or.inr ⟨strL "path", rfl⟩)
    simpa using h

/-! ## Claim C4 -/

/-- The amended description of `parse_url_list`, phrased independently:
split into lines, drop the lines that are empty *before* trimming, trim
the rest, then run the indexed validation pass as a `forM` over the
enumerated list, failing at the first line that `is_string_url` does not
accept. -/
def specParse (text : List Char) : Except PyErr (List (List Char)) := do
  let urls := ((pySplitlines text).filter (· ≠ [])).map pyStrip
  urls.enum.forM (fun iu => do
    let b ← is_string_url iu.2
    if b then pure () else Except.error (PyErr.invalidURLAt iu.2 iu.1))
  pure urls

theorem checkUrls_eq_forM (us : List (List Char)) :
    ∀ i, checkUrls i us =
      (us.enumFrom i).forM (fun iu => do
        let b ← is_string_url iu.2
        if b then pure () else Except.error (PyErr.invalidURLAt iu.2 iu.1)) := by
  induction us with
  | nil => intro i; rfl
  | cons u rest ih =>
    intro i
    show (do
        let b ← is_string_url u
        if !b then Except.error (PyErr.invalidURLAt u i) else checkUrls (i + 1) rest) = _
    show _ = ((i, u) :: List.enumFrom (i + 1) rest).forM _
    rw [List.forM]
    cases hb : is_string_url u with
    | error e => rfl
    | ok b =>
      cases b with
      | false => rfl
      | true => simpa using ih (i + 1)

/-- C4 counterexample: the claim reads "trims each line, drops empty
lines", under which a whitespace-only input has no remaining lines and
the ordered list `[]` is returned.  The code drops lines that are empty
*before* trimming, so `parse_url_list("   ")` keeps the line, trims it to
`""`, and raises the invalid-URL error at index 0 instead of returning
`[]`. -/
theorem parse_url_list_whitespace_line :
    parse_url_list (strL "   ") ≠ Except.ok [] ∧
      parse_url_list (strL "   ") = Except.error (PyErr.invalidURLAt [] 0) := by
  have h2 : parse_url_list (strL "   ") = Except.error (PyErr.invalidURLAt [] 0) := rfl
  refine ⟨?_, h2⟩
  rw [h2]
  intro h
  exact Except.noConfusion h

/-- C4 (amended): `parse_url_list` splits into lines, drops the lines
that are empty before trimming, trims the rest, and validates each
remaining line in order with `is_string_url`, failing at the first
rejected line with its 0-based index and content; the two concrete
examples of the spec behave as claimed. -/
theorem parse_url_list_spec :
    parse_url_list (strL " http://test.com/some-page/ \n\n https://test2.com?q=     \r\n") =
        Except.ok [strL "http://test.com/some-page/", strL "https://test2.com?q="] ∧
      parse_url_list (strL " not-valid-url \n\n https://test2.com?q=     \r\n") =
        Except.error (PyErr.invalidURLAt (strL "not-valid-url") 0) ∧
      ∀ text, parse_url_list text = specParse text := by
  refine ⟨rfl, rfl, ?_⟩
  intro text
  unfold parse_url_list specParse
  simp only [checkUrls_eq_forM _ 0, List.enum]

/-! ## Claim C6 -/

theorem mFull_iff {a : Matcher} {l : List Char} :
    mFull a l = true ↔ [] ∈ a l := by
  simp [mFull, List.any_eq_true, List.isEmpty_iff]

theorem mem_mSeq {a b : Matcher} {l r : List Char} :
    r ∈ mSeq a b l ↔ ∃ m, m ∈ a l ∧ r ∈ b m := by
  simp [mSeq, List.mem_flatMap]

theorem mem_mCls {p : Char → Bool} {l r : List Char} :
    r ∈ mCls p l ↔ ∃ c, p c = true ∧ l = c :: r := by
  cases l with
  | nil => simp [mCls]
  | cons c t =>
    by_cases h : p c = true
    · simp only [mCls, h, if_pos]
      constructor
      · intro hr
        have : r = t := by simpa using hr
        exact ⟨c, h, by rw [this]⟩
      · rintro ⟨c', hc', he⟩
        have h1 : c' = c := (List.cons.inj he).1.symm
        have h2 : t = r := (List.cons.inj he).2
        simp [h2]
    · simp only [mCls, h, if_neg]
      constructor
      · intro hr; simp at hr
      · rintro ⟨c', hc', he⟩
        have h1 : c' = c := (List.cons.inj he).1.symm
        rw [h1] at hc'
        simp [hc'] at h

theorem mem_mUpTo_mCls {p : Char → Bool} :
    ∀ (n : Nat) (l r : List Char),
      r ∈ mUpTo n (mCls p) l ↔
        ∃ g, g.length ≤ n ∧ (∀ c ∈ g, p c = true) ∧ l = g ++ r := by
  intro n
  induction n with
  | zero =>
    intro l r
    simp only [mUpTo, mEps, List.mem_singleton]
    constructor
    · rintro rfl; exact ⟨[], by simp, by simp, rfl⟩
    · rintro ⟨g, hg, _, rfl⟩
      have : g = [] := List.length_eq_zero.mp (Nat.le_zero.mp hg)
      simp [this]
  | succ n ih =>
    intro l r
    simp only [mUpTo, mAlt, mEps, List.mem_append, List.mem_singleton, mem_mSeq]
    constructor
    · rintro (rfl | ⟨m, hm, hr⟩)
      · exact ⟨[], by simp, by simp, rfl⟩
      · rw [mem_mCls] at hm
        obtain ⟨c, hc, rfl⟩ := hm
        obtain ⟨g, hgn, hgp, rfl⟩ := (ih m r).mp hr
        refine ⟨c :: g, by simpa using Nat.succ_le_succ hgn, ?_, rfl⟩
        intro x hx
        rcases List.mem_cons.mp hx with rfl | hx
        · exact hc
        · exact hgp x hx
    · rintro ⟨g, hgn, hgp, rfl⟩
      cases g with
      | nil => left; rfl
      | cons c g' =>
        right
        refine ⟨g' ++ r, ?_, ?_⟩
        · rw [mem_mCls]
          exact ⟨c, hgp c (List.mem_cons_self c g'), rfl⟩
        · exact (ih _ r).mpr ⟨g', by simpa using Nat.le_of_succ_le_succ hgn,
            fun x hx => hgp x (List.mem_cons_of_mem c hx), rfl⟩

theorem mFull_mSeq {a b : Matcher} {l : List Char} :
    mFull (mSeq a b) l = true ↔ ∃ m, m ∈ a l ∧ mFull b m = true := by
  simp only [mFull_iff, mem_mSeq]

theorem mFull_mUpTo_mCls {p : Char → Bool} {n : Nat} {l : List Char} :
    mFull (mUpTo n (mCls p)) l = true ↔ l.length ≤ n ∧ ∀ c ∈ l, p c = true := by
  rw [mFull_iff, mem_mUpTo_mCls]
  constructor
  · rintro ⟨g, hgn, hgp, rfl⟩
    simpa using ⟨hgn, hgp⟩
  · rintro ⟨hn, hp⟩
    exact ⟨l, hn, hp, by simp⟩

/-- A "group" of the IPv4 pattern: at most three ASCII digits. -/
def IsIpv4Group (g : List Char) : Prop :=
  g.length ≤ 3 ∧ ∀ c ∈ g, isDigitC c = true

/-- A decomposition into four digit groups separated by three single
characters of the class `sepOk`. -/
def Ipv4Decomp (sepOk : Char → Bool) (l : List Char) : Prop :=
  ∃ g1 c1 g2 c2 g3 c3 g4,
    IsIpv4Group g1 ∧ sepOk c1 = true ∧ IsIpv4Group g2 ∧ sepOk c2 = true ∧
      IsIpv4Group g3 ∧ sepOk c3 = true ∧ IsIpv4Group g4 ∧
      l = g1 ++ c1 :: (g2 ++ c2 :: (g3 ++ c3 :: g4))

/-- The IPv4 matcher matches the whole input exactly when the input has
the four-group decomposition. -/
theorem mFull_ipv4MWith (sepOk : Char → Bool) (l : List Char) :
    mFull (ipv4MWith sepOk) l = true ↔ Ipv4Decomp sepOk l := by
  unfold ipv4MWith Ipv4Decomp IsIpv4Group
  constructor
  · intro h
    rw [mFull_mSeq] at h
    obtain ⟨r1, h1, h⟩ := h
    rw [mem_mUpTo_mCls] at h1
    obtain ⟨g1, hg1n, hg1p, rfl⟩ := h1
    rw [mFull_mSeq] at h
    obtain ⟨r2, h2, h⟩ := h
    rw [mem_mCls] at h2
    obtain ⟨c1, hc1, rfl⟩ := h2
    rw [mFull_mSeq] at h
    obtain ⟨r3, h3, h⟩ := h
    rw [mem_mUpTo_mCls] at h3
    obtain ⟨g2, hg2n, hg2p, rfl⟩ := h3
    rw [mFull_mSeq] at h
    obtain ⟨r4, h4, h⟩ := h
    rw [mem_mCls] at h4
    obtain ⟨c2, hc2, rfl⟩ := h4
    rw [mFull_mSeq] at h
    obtain ⟨r5, h5, h⟩ := h
    rw [mem_mUpTo_mCls] at h5
    obtain ⟨g3, hg3n, hg3p, rfl⟩ := h5
    rw [mFull_mSeq] at h
    obtain ⟨r6, h6, h⟩ := h
    rw [mem_mCls] at h6
    obtain ⟨c3, hc3, rfl⟩ := h6
    rw [mFull_mUpTo_mCls] at h
    exact ⟨g1, c1, g2, c2, g3, c3, r6, ⟨hg1n, hg1p⟩, hc1, ⟨hg2n, hg2p⟩, hc2,
      ⟨hg3n, hg3p⟩, hc3, ⟨h.1, h.2⟩, rfl⟩
  · rintro ⟨g1, c1, g2, c2, g3, c3, g4, ⟨hg1n, hg1p⟩, hc1, ⟨hg2n, hg2p⟩, hc2,
      ⟨hg3n, hg3p⟩, hc3, ⟨hg4n, hg4p⟩, rfl⟩
    rw [mFull_mSeq]
    refine ⟨_, (mem_mUpTo_mCls 3 _ _).mpr ⟨g1, hg1n, hg1p, rfl⟩, ?_⟩
    rw [mFull_mSeq]
    refine ⟨_, mem_mCls.mpr ⟨c1, hc1, rfl⟩, ?_⟩
    rw [mFull_mSeq]
    refine ⟨_, (mem_mUpTo_mCls 3 _ _).mpr ⟨g2, hg2n, hg2p, rfl⟩, ?_⟩
    rw [mFull_mSeq]
    refine ⟨_, mem_mCls.mpr ⟨c2, hc2, rfl⟩, ?_⟩
    rw [mFull_mSeq]
    refine ⟨_, (mem_mUpTo_mCls 3 _ _).mpr ⟨g3, hg3n, hg3p, rfl⟩, ?_⟩
    rw [mFull_mSeq]
    refine ⟨_, mem_mCls.mpr ⟨c3, hc3, rfl⟩, ?_⟩
    rw [mFull_mUpTo_mCls]
    exact ⟨hg4n, hg4p⟩

/-- C6's wording, formalised: four groups of 0–3 digits separated by
three single characters, with the separator allowed to be *any*
character. -/
def ClaimIpv4Shape (l : List Char) : Prop := Ipv4Decomp (fun _ => true) l

/-- The amended shape: the separators are any characters *except
newlines*, and one trailing newline after the matched shape is tolerated
(Python's `$` also matches just before a final newline). -/
def AmendedIpv4Shape (l : List Char) : Prop :=
  Ipv4Decomp notNL l ∨ (l.getLast? = some '\n' ∧ Ipv4Decomp notNL l.dropLast)

/-- C6 counterexample: the claimed characterisation fails in both
directions.  `"1.2.3.4\n"` is accepted by `is_string_ipv4` (the `$`
matches before the trailing newline) but has no four-group decomposition
of the whole string; `"1\n2\n3\n4"` has the claimed shape (separators are
"any character") but is rejected, because the unescaped `.` does not
match a newline. -/
theorem is_string_ipv4_newline_counterexample :
    (is_string_ipv4 (strL "1.2.3.4\n") = true ∧ ¬ ClaimIpv4Shape (strL "1.2.3.4\n")) ∧
      (is_string_ipv4 (strL "1\n2\n3\n4") = false ∧ ClaimIpv4Shape (strL "1\n2\n3\n4")) := by
  refine ⟨⟨rfl, ?_⟩, rfl, ?_⟩
  · show ¬ Ipv4Decomp (fun _ => true) (strL "1.2.3.4\n")
    rw [← mFull_ipv4MWith]
    decide
  · show Ipv4Decomp (fun _ => true) (strL "1\n2\n3\n4")
    rw [← mFull_ipv4MWith]
    decide

/-- C6 (amended): `is_string_ipv4 s` is true exactly when `s`, possibly
after discarding one trailing newline, decomposes into four dot-separated
groups of 0–3 digits, where the three separator positions match any
character except a newline. -/
theorem is_string_ipv4_iff (s : List Char) :
    is_string_ipv4 s = true ↔ AmendedIpv4Shape s := by
  unfold is_string_ipv4 reSearchAnchored ipv4M AmendedIpv4Shape
  rw [Bool.or_eq_true, Bool.and_eq_true]
  rw [mFull_ipv4MWith, mFull_ipv4MWith]
  simp [decide_eq_true_eq]

/-! ## Claim C5 -/

/-- The `trimmed_url[:-len(slash)]` of `toggle_last_url_slash`. -/
def strippedCore (url : List Char) (encoded : Bool) : List Char :=
  (pyStrip url).take ((pyStrip url).length - (slashTok encoded).length)

/-- Whether a string does not end in whitespace. -/
def noTrailingSpace (l : List Char) : Bool :=
  match l.getLast? with
  | some c => !pyIsSpace c
  | none => true

theorem pyRstrip_prefix (x : List Char) : pyRstrip x <+: x := by
  unfold pyRstrip
  have h := List.dropWhile_suffix (l := x.reverse) pyIsSpace
  have h2 := List.reverse_prefix.mpr h
  rwa [List.reverse_reverse] at h2

theorem pyStrip_head_not_space {l : List Char} {c : Char}
    (h : (pyStrip l).head? = some c) : pyIsSpace c = false := by
  unfold pyStrip at h
  obtain ⟨t, ht⟩ := pyRstrip_prefix (l.dropWhile pyIsSpace)
  have hh : (l.dropWhile pyIsSpace).head? = some c := by
    rw [← ht, List.head?_append, h]
    rfl
  have := List.head?_dropWhile_not pyIsSpace l
  rw [hh] at this
  exact this

theorem pyStrip_last_not_space {l : List Char} {c : Char}
    (h : (pyStrip l).getLast? = some c) : pyIsSpace c = false := by
  unfold pyStrip pyRstrip at h
  rw [List.getLast?_reverse] at h
  have := List.head?_dropWhile_not pyIsSpace (l.dropWhile pyIsSpace).reverse
  rw [h] at this
  exact this

theorem pyStrip_eq_self {l : List Char}
    (h1 : ∀ c, l.head? = some c → pyIsSpace c = false)
    (h2 : ∀ c, l.getLast? = some c → pyIsSpace c = false) : pyStrip l = l := by
  unfold pyStrip pyRstrip
  have hd : l.dropWhile pyIsSpace = l := by
    cases l with
    | nil => rfl
    | cons c t => rw [List.dropWhile_cons, h1 c rfl]; simp
  rw [hd]
  have hr : l.reverse.dropWhile pyIsSpace = l.reverse := by
    cases hrev : l.reverse with
    | nil => rfl
    | cons c t =>
      have hlast : l.getLast? = some c := by
        rw [List.getLast?_eq_head?_reverse, hrev]; rfl
      rw [List.dropWhile_cons, h2 c hlast]; simp
  rw [hr, List.reverse_reverse]

/-- C5 (amended): `toggle_last_url_slash` applied twice returns the
trimmed input — provided that, when the trimmed input ends with the slash
token, removing that one token leaves a string that neither ends in
whitespace nor still ends with the slash token.  (Without the proviso a
newly exposed trailing space is re-trimmed, or a second slash token is
removed, by the second application.) -/
theorem toggle_last_url_slash_involution (url : List Char) (encoded : Bool)
    (h : (slashTok encoded).isSuffixOf (pyStrip url) = true →
      noTrailingSpace (strippedCore url encoded) = true ∧
        (slashTok encoded).isSuffixOf (strippedCore url encoded) = false) :
    toggle_last_url_slash (toggle_last_url_slash url encoded) encoded = pyStrip url := by
  by_cases hsuf : (slashTok encoded).isSuffixOf (pyStrip url) = true
  · obtain ⟨hns, hnsuf⟩ := h hsuf
    have hsuf' : slashTok encoded <:+ pyStrip url := by
      rwa [List.isSuffixOf_iff_suffix] at hsuf
    obtain ⟨t', ht'⟩ := hsuf'
    have hcore : strippedCore url encoded = t' := by
      unfold strippedCore
      rw [← ht', List.length_append]
      have harith : t'.length + (slashTok encoded).length - (slashTok encoded).length
          = t'.length := by omega
      rw [harith, List.take_left]
    have hinner : toggle_last_url_slash url encoded = t' := by
      unfold toggle_last_url_slash
      rw [if_pos hsuf]
      rw [← hcore]; rfl
    rw [hinner]
    unfold toggle_last_url_slash
    have hstrip : pyStrip t' = t' := by
      apply pyStrip_eq_self
      · intro c hc
        have hh : (pyStrip url).head? = some c := by
          rw [← ht', List.head?_append, hc]
          rfl
        exact pyStrip_head_not_space hh
      · intro c hc
        rw [hcore] at hns
        unfold noTrailingSpace at hns
        rw [hc] at hns
        simpa using hns
    rw [hstrip]
    rw [hcore] at hnsuf
    rw [if_neg (by rw [hnsuf]; exact Bool.false_ne_true)]
    exact ht'
  · have hinner : toggle_last_url_slash url encoded = pyStrip url ++ slashTok encoded := by
      unfold toggle_last_url_slash
      rw [if_neg hsuf]
    rw [hinner]
    unfold toggle_last_url_slash
    have hstrip : pyStrip (pyStrip url ++ slashTok encoded)
        = pyStrip url ++ slashTok encoded := by
      apply pyStrip_eq_self
      · intro c hc
        rw [List.head?_append] at hc
        cases hh : (pyStrip url).head? with
        | some c' =>
          rw [hh] at hc
          exact pyStrip_head_not_space (hh.trans (congrArg some (Option.some.inj hc)))
        | none =>
          rw [hh] at hc
          cases encoded <;> simp_all [slashTok, strL] <;> subst hc <;> decide
      · intro c hc
        rw [List.getLast?_append] at hc
        cases encoded <;> simp_all [slashTok, strL] <;> subst hc <;> decide
    rw [hstrip]
    have hs2 : (slashTok encoded).isSuffixOf (pyStrip url ++ slashTok encoded) = true := by
      rw [List.isSuffixOf_iff_suffix]
      exact List.suffix_append _ _
    rw [if_pos hs2]
    rw [List.length_append]
    exact List.take_left' (by omega)

/-- C5 counterexample: on `"a//"` (no `encoded` flag) the first toggle
removes one slash leaving `"a/"`, and the second removes the other,
giving `"a"` rather than the trimmed original `"a//"`. -/
theorem toggle_last_url_slash_not_involution :
    toggle_last_url_slash (toggle_last_url_slash (strL "a//") false) false ≠
      pyStrip (strL "a//") := by
  decide

/-- C5 witness: a concrete instance of the amended involution. -/
theorem toggle_last_url_slash_involution_witness :
    toggle_last_url_slash (toggle_last_url_slash (strL " http://t.com/a/ ") false) false =
      pyStrip (strL " http://t.com/a/ ") :=
  toggle_last_url_slash_involution (strL " http://t.com/a/ ") false (by decide)

/-! ## Claim C3 -/

theorem pyStrip_isInfix (l : List Char) : pyStrip l <:+: l := by
  obtain ⟨t, ht⟩ := pyRstrip_prefix (l.dropWhile pyIsSpace)
  obtain ⟨s, hs⟩ := List.dropWhile_suffix (l := l) pyIsSpace
  refine ⟨s, t, ?_⟩
  rw [List.append_assoc]
  show s ++ (pyRstrip (l.dropWhile pyIsSpace) ++ t) = l
  rw [ht, hs]

theorem findSub_decomp {s pat : List Char} :
    ∀ {i : Nat}, findSub s pat = some i →
      s = s.take i ++ pat ++ s.drop (i + pat.length) := by
  induction s with
  | nil =>
    intro i h
    unfold findSub at h
    by_cases hp : pat.isPrefixOf ([] : List Char) = true
    · rw [if_pos hp] at h
      obtain rfl : 0 = i := by simpa using h
      have hpnil : pat = [] := List.prefix_nil.mp (List.isPrefixOf_iff_prefix.mp hp)
      subst hpnil
      simp
    · rw [if_neg hp] at h
      simp at h
  | cons c t ih =>
    intro i h
    unfold findSub at h
    by_cases hp : pat.isPrefixOf (c :: t) = true
    · rw [if_pos hp] at h
      obtain rfl : 0 = i := by simpa using h
      obtain ⟨r, hr⟩ := List.isPrefixOf_iff_prefix.mp hp
      rw [List.take_zero, List.nil_append, Nat.zero_add, ← hr, List.drop_left]
    · rw [if_neg hp] at h
      obtain ⟨j, hj, hji⟩ := Option.map_eq_some'.mp h
      subst hji
      have iht := ih hj
      rw [List.take_succ_cons]
      have harith : j + 1 + pat.length = (j + pat.length) + 1 := by omega
      rw [harith, List.drop_succ_cons, List.cons_append, List.cons_append]
      exact congrArg (c :: ·) iht

theorem replaceFirst_empty_rep_spec (s pat : List Char) :
    (replaceFirst s pat []).length ≤ s.length ∧
      ((replaceFirst s pat []).length = s.length → replaceFirst s pat [] = s) := by
  unfold replaceFirst
  cases hf : findSub s pat with
  | none => exact ⟨le_rfl, fun _ => rfl⟩
  | some i =>
    have hd := findSub_decomp hf
    constructor
    · conv_rhs => rw [hd]
      simp [List.length_append]
    · intro hlen
      have hplen : pat.length = 0 := by
        have hds := congrArg List.length hd
        simp only [List.length_append] at hds
        simp only [List.length_append, List.length_nil] at hlen
        omega
      have hpnil : pat = [] := List.length_eq_zero.mp hplen
      subst hpnil
      simp only [List.length_nil, Nat.add_zero, List.append_nil]
      exact List.take_append_drop i s

theorem remove_http_spec (l : List Char) :
    (remove_http l).length ≤ l.length ∧
      ((remove_http l).length = l.length → remove_http l = l) := by
  unfold remove_http
  obtain ⟨h1le, h1eq⟩ := replaceFirst_empty_rep_spec l (strL "https://")
  obtain ⟨h2le, _⟩ :=
    replaceFirst_empty_rep_spec (replaceFirst l (strL "https://") []) (strL "http://")
  refine ⟨h2le.trans h1le, fun h => ?_⟩
  have e1 : (replaceFirst l (strL "https://") []).length = l.length :=
    Nat.le_antisymm h1le (h ▸ h2le)
  have hinner := h1eq e1
  rw [hinner] at h ⊢
  obtain ⟨_, h3eq⟩ := replaceFirst_empty_rep_spec l (strL "http://")
  exact h3eq h

theorem remove_last_slash_isPrefix (l : List Char) : remove_last_slash l <+: l := by
  obtain ⟨⟨n, h1⟩, _⟩ := remove_last_slash_spec l.length l le_rfl
  exact ⟨List.replicate n '/', h1.symm⟩

theorem wwwJoinedGroups_length {u j : List Char} (h : wwwJoinedGroups u = some j) :
    j.length < u.length := by
  unfold wwwJoinedGroups at h
  by_cases h1 : (strL "https://").isPrefixOf u = true
  · simp only [h1, if_true] at h
    by_cases h2 : (strL "www.").isPrefixOf (u.drop 8) = true
    · simp only [h2, if_true] at h
      by_cases h3 : ((u.drop 8).drop 4).takeWhile (· ≠ '\n') = []
      · rw [if_pos h3] at h
        exact absurd h (by simp)
      · rw [if_neg h3] at h
        obtain rfl := (Option.some.inj h).symm
        obtain ⟨t, ht⟩ := List.isPrefixOf_iff_prefix.mp h1
        obtain ⟨t4, ht4⟩ := List.isPrefixOf_iff_prefix.mp h2
        have hdrop : u.drop 8 = t := by
          rw [← ht]
          exact List.drop_left' (by decide)
        rw [hdrop] at ht4 ⊢
        have ht4drop : t.drop 4 = t4 := by
          rw [← ht4]
          exact List.drop_left' (by decide)
        rw [ht4drop]
        have hcap2 : (t4.takeWhile (· ≠ '\n')).length ≤ t4.length :=
          (List.takeWhile_prefix _).length_le
        have hu : u.length = 8 + t.length := by
          rw [← ht, List.length_append, show (strL "https://").length = 8 from by decide]
        have ht4len : t.length = 4 + t4.length := by
          rw [← ht4, List.length_append, show (strL "www.").length = 4 from by decide]
        simp only [List.length_append, show (strL "https://").length = 8 from by decide,
          show (strL "s").length = 1 from by decide]
        omega
    · simp [h2] at h
  · by_cases h1' : (strL "http://").isPrefixOf u = true
    · simp only [h1, h1', Bool.false_eq_true, if_true, if_false] at h
      by_cases h2 : (strL "www.").isPrefixOf (u.drop 7) = true
      · simp only [h2, if_true] at h
        by_cases h3 : ((u.drop 7).drop 4).takeWhile (· ≠ '\n') = []
        · rw [if_pos h3] at h
          exact absurd h (by simp)
        · rw [if_neg h3] at h
          obtain rfl := (Option.some.inj h).symm
          obtain ⟨t, ht⟩ := List.isPrefixOf_iff_prefix.mp h1'
          obtain ⟨t4, ht4⟩ := List.isPrefixOf_iff_prefix.mp h2
          have hdrop : u.drop 7 = t := by
            rw [← ht]
            exact List.drop_left' (by decide)
          rw [hdrop] at ht4 ⊢
          have ht4drop : t.drop 4 = t4 := by
            rw [← ht4]
            exact List.drop_left' (by decide)
          rw [ht4drop]
          have hcap2 : (t4.takeWhile (· ≠ '\n')).length ≤ t4.length :=
            (List.takeWhile_prefix _).length_le
          have hu : u.length = 7 + t.length := by
            rw [← ht, List.length_append, show (strL "http://").length = 7 from by decide]
          have ht4len : t.length = 4 + t4.length := by
            rw [← ht4, List.length_append, show (strL "www.").length = 4 from by decide]
          simp only [List.length_append, show (strL "http://").length = 7 from by decide,
            List.length_nil]
          omega
      · simp [h2] at h
    · simp only [h1, h1', Bool.false_eq_true, if_false] at h
      by_cases h2 : (strL "www.").isPrefixOf u = true
      · simp only [h2, if_true] at h
        by_cases h3 : (u.drop 4).takeWhile (· ≠ '\n') = []
        · rw [if_pos h3] at h
          exact absurd h (by simp)
        · rw [if_neg h3] at h
          obtain rfl := (Option.some.inj h).symm
          obtain ⟨t4, ht4⟩ := List.isPrefixOf_iff_prefix.mp h2
          have ht4drop : u.drop 4 = t4 := by
            rw [← ht4]
            exact List.drop_left' (by decide)
          rw [ht4drop]
          have hcap2 : (t4.takeWhile (· ≠ '\n')).length ≤ t4.length :=
            (List.takeWhile_prefix _).length_le
          have ht4len : u.length = 4 + t4.length := by
            rw [← ht4, List.length_append, show (strL "www.").length = 4 from by decide]
          simp only [List.length_append, List.length_nil]
          omega
      · simp [h2] at h

theorem remove_www_spec (u : List Char) :
    (remove_www u).length ≤ u.length ∧
      ((remove_www u).length = u.length → remove_www u = u) := by
  unfold remove_www
  cases hw : wwwJoinedGroups u with
  | none => exact ⟨le_rfl, fun _ => rfl⟩
  | some j =>
    have := wwwJoinedGroups_length hw
    exact ⟨Nat.le_of_lt this, fun h => absurd h (Nat.ne_of_lt this)⟩

/-- C3 (amended): `full_clean_url` is idempotent at `u` exactly when its
result is left unchanged by each of the four cleaning stages (trimming,
`remove_http`, `remove_last_slash`, `remove_www`).  Each stage can only
shorten its input, so a second full clean is the identity iff every stage
fixes the already-cleaned value; this fails for inputs like
`"www.www.a"`, whose clean `"www.a"` still matches the `www.` pattern. -/
theorem full_clean_url_idempotent_iff (u : List Char) :
    full_clean_url (full_clean_url u) = full_clean_url u ↔
      (pyStrip (full_clean_url u) = full_clean_url u ∧
        remove_http (full_clean_url u) = full_clean_url u ∧
        remove_last_slash (full_clean_url u) = full_clean_url u ∧
        remove_www (full_clean_url u) = full_clean_url u) := by
  constructor
  · intro h
    set c := full_clean_url u with hc
    have hstrip_le : (pyStrip c).length ≤ c.length := (pyStrip_isInfix c).length_le
    obtain ⟨hhttp_le, hhttp_eq⟩ := remove_http_spec (pyStrip c)
    have hslash_le : (remove_last_slash (remove_http (pyStrip c))).length ≤
        (remove_http (pyStrip c)).length :=
      (remove_last_slash_isPrefix _).length_le
    obtain ⟨hwww_le, _⟩ := remove_www_spec (remove_last_slash (remove_http (pyStrip c)))
    have hlen : (full_clean_url c).length = c.length := by rw [h]
    unfold full_clean_url at hlen
    have e1 : (pyStrip c).length = c.length := by omega
    have estrip : pyStrip c = c := (pyStrip_isInfix c).eq_of_length e1
    rw [estrip] at hlen hhttp_le hhttp_eq hslash_le hwww_le
    have e2 : (remove_http c).length = c.length := by omega
    have ehttp : remove_http c = c := hhttp_eq e2
    rw [ehttp] at hlen hslash_le hwww_le
    have e3 : (remove_last_slash c).length = c.length := by omega
    have eslash : remove_last_slash c = c := (remove_last_slash_isPrefix c).eq_of_length e3
    rw [eslash] at hlen
    obtain ⟨_, hwww_eq⟩ := remove_www_spec c
    exact ⟨estrip, ehttp, eslash, hwww_eq hlen⟩
  · rintro ⟨h1, h2, h3, h4⟩
    show remove_www (remove_last_slash (remove_http (pyStrip (full_clean_url u)))) = _
    rw [h1, h2, h3, h4]

/-- C3 counterexample: `full_clean_url("www.www.a")` is `"www.a"`, and
cleaning that again yields `"a"`, so the function is not idempotent. -/
theorem full_clean_url_not_idempotent :
    full_clean_url (full_clean_url (strL "www.www.a")) ≠
      full_clean_url (strL "www.www.a") := by
  have h1 : full_clean_url (strL "www.www.a") = strL "www.a" := by
    unfold full_clean_url
    rw [show remove_http (pyStrip (strL "www.www.a")) = strL "www.www.a" from rfl]
    rw [remove_last_slash_of_not_slash (by decide)]
    rfl
  have h2 : full_clean_url (strL "www.a") = strL "a" := by
    unfold full_clean_url
    rw [show remove_http (pyStrip (strL "www.a")) = strL "www.a" from rfl]
    rw [remove_last_slash_of_not_slash (by decide)]
    rfl
  rw [h1, h2]
  decide

/-- C3 witness: a concrete URL whose clean is a fixed point of each
stage, hence idempotent, by the amended theorem. -/
theorem full_clean_url_idempotent_witness :
    full_clean_url (full_clean_url (strL "http://www.example.com")) =
      full_clean_url (strL "http://www.example.com") := by
  have hc : full_clean_url (strL "http://www.example.com") = strL "example.com" := by
    unfold full_clean_url
    rw [show remove_http (pyStrip (strL "http://www.example.com")) = strL "www.example.com"
      from rfl]
    rw [remove_last_slash_of_not_slash (by decide)]
    rfl
  apply (full_clean_url_idempotent_iff (strL "http://www.example.com")).mpr
  refine ⟨?_, ?_, ?_, ?_⟩ <;> rw [hc]
  · rfl
  · rfl
  · exact remove_last_slash_of_not_slash (by decide)
  · rfl

/-! ## Claim C7 -/

theorem breakAtChar_eq {sep : Char} :
    ∀ {l a b : List Char}, breakAtChar sep l = some (a, b) → l = a ++ sep :: b := by
  intro l
  induction l with
  | nil => intro a b h; simp [breakAtChar] at h
  | cons c t ih =>
    intro a b h
    unfold breakAtChar at h
    by_cases hcs : c = sep
    · rw [if_pos hcs] at h
      have hab := Option.some.inj h
      obtain ⟨rfl, rfl⟩ := Prod.mk.inj hab
      rw [hcs]
      rfl
    · rw [if_neg hcs] at h
      obtain ⟨⟨a', b'⟩, hab, heq⟩ := Option.map_eq_some'.mp h
      obtain ⟨rfl, rfl⟩ := Prod.mk.inj heq
      rw [List.cons_append]
      exact congrArg (c :: ·) (ih hab)

theorem splitScheme_snd_suffix (url : List Char) : (splitScheme url).2 <:+ url := by
  unfold splitScheme
  cases hb : breakAtChar ':' url with
  | none => exact List.suffix_refl url
  | some p =>
    obtain ⟨before, after⟩ := p
    dsimp only
    by_cases hc : before ≠ [] ∧ before.all isSchemeChar = true
    · rw [if_pos hc]
      have hd := breakAtChar_eq hb
      exact ⟨before ++ [':'], by rw [hd]; simp⟩
    · rw [if_neg hc]

theorem urlsplit_netloc_infix {url : List Char} {s : SplitResult}
    (h : urlsplit url = Except.ok s) : s.netloc <:+: url := by
  unfold urlsplit at h
  rcases hsp : splitScheme url with ⟨scheme, rest⟩
  rw [hsp] at h
  dsimp only at h
  have hsuf : rest <:+ url := by
    have := splitScheme_snd_suffix url
    rwa [hsp] at this
  by_cases hpre : (strL "//").isPrefixOf rest = true
  · rw [if_pos hpre] at h
    by_cases hbr : ((rest.drop 2).takeWhile (fun c => ¬ isNetlocDelim c)).contains '[' ≠
        ((rest.drop 2).takeWhile (fun c => ¬ isNetlocDelim c)).contains ']'
    · rw [if_pos hbr] at h
      exact absurd h (fun hh => Except.noConfusion hh)
    · rw [if_neg hbr] at h
      injection h with h2
      rw [← h2]
      show (rest.drop 2).takeWhile (fun c => ¬ isNetlocDelim c) <:+: url
      have h1 : (rest.drop 2).takeWhile (fun c => ¬ isNetlocDelim c) <+: rest.drop 2 :=
        List.takeWhile_prefix _
      have h2' : rest.drop 2 <:+ rest := List.drop_suffix 2 rest
      exact (h1.isInfix.trans h2'.isInfix).trans hsuf.isInfix
  · rw [if_neg hpre] at h
    injection h with h2
    rw [← h2]
    exact List.nil_infix

theorem is_string_url_ok_true_urlparse {url : List Char}
    (h : is_string_url url = Except.ok true) : ∃ p, urlparse url = Except.ok p := by
  unfold is_string_url decode_url decode_string at h
  dsimp only at h
  cases hp : urlparse url with
  | error e =>
    rw [hp] at h
    exact absurd h (fun hh => Except.noConfusion hh)
  | ok p => exact ⟨p, rfl⟩

/-- C7: `get_url_domain` succeeds exactly when `is_string_url` evaluates
to `true` (in particular, it propagates the error whenever `is_string_url`
itself raises), and on success it returns the netloc of the parsed URL —
a verbatim contiguous substring of the input (including a leading
`"www."` when the input has one). -/
theorem get_url_domain_spec (url : List Char) :
    ((∃ d, get_url_domain url = Except.ok d) ↔ is_string_url url = Except.ok true) ∧
      ∀ d, get_url_domain url = Except.ok d →
        ∃ p, urlparse url = Except.ok p ∧ d = p.netloc ∧ d <:+: url := by
  constructor
  · constructor
    · rintro ⟨d, hd⟩
      unfold get_url_domain at hd
      cases hb : is_string_url url with
      | error e =>
        rw [hb] at hd
        exact absurd hd (fun hh => Except.noConfusion hh)
      | ok b =>
        rw [hb] at hd
        cases b with
        | true => rfl
        | false => exact absurd hd (fun hh => Except.noConfusion hh)
    · intro hb
      unfold get_url_domain
      rw [hb]
      obtain ⟨p, hp⟩ := is_string_url_ok_true_urlparse hb
      refine ⟨p.netloc, ?_⟩
      rw [hp]
      rfl
  · intro d hd
    unfold get_url_domain at hd
    cases hb : is_string_url url with
    | error e =>
      rw [hb] at hd
      exact absurd hd (fun hh => Except.noConfusion hh)
    | ok b =>
      rw [hb] at hd
      cases b with
      | false => exact absurd hd (fun hh => Except.noConfusion hh)
      | true =>
        cases hp : urlparse url with
        | error e =>
          rw [hp] at hd
          exact absurd hd (fun hh => Except.noConfusion hh)
        | ok p =>
          rw [hp] at hd
          have hdp : d = p.netloc := by
            injection hd with h2
            exact h2.symm
          refine ⟨p, rfl, hdp, ?_⟩
          unfold urlparse at hp
          cases hs : urlsplit url with
          | error e =>
            rw [hs] at hp
            exact absurd hp (fun hh => Except.noConfusion hh)
          | ok s =>
            rw [hs] at hp
            have hnet : p.netloc = s.netloc := by
              injection hp with h2
              rw [← h2]
            rw [hdp, hnet]
            exact urlsplit_netloc_infix hs

/-- C7 witness: a concrete valid URL, its extracted domain, and the
domain's substring relation, obtained from the theorem. -/
theorem get_url_domain_spec_witness :
    get_url_domain (strL "http://test.com") = Except.ok (strL "test.com") ∧
      (strL "test.com") <:+: (strL "http://test.com") := by
  refine ⟨rfl, ?_⟩
  obtain ⟨p, hp, hdp, hinf⟩ :=
    (get_url_domain_spec (strL "http://test.com")).2 (strL "test.com") rfl
  exact hinf

end Urlfuncs
